import Mathlib

/-!
Shallow embedding of the FastaFlow core pipeline (src/main.py): sequence
validation, cleaning, statistics over accepted records, and the per-record
accept/clean/drop loop of `process_fasta`.

A Python string (a DNA sequence or a record identifier) is modelled as
`List Char`. Python's `str.upper()` is modelled by `Char.toUpper`
character-wise, which agrees with Python on every character whose uppercase
form could be one of A, T, G, C. Python's `<` on strings — lexicographic by
code point, a proper prefix being smaller — is modelled by the structural
comparison `idLt`.
-/

/-- A FASTA record as the pipeline sees it: an identifier and a sequence.
Mirrors the `id` / `seq` fields of a Biopython `SeqRecord`. -/
structure SeqRecord where
  id : List Char
  seq : List Char
deriving DecidableEq, Repr

/-- `valid_bases = set("ATGC")` from `validate_sequence` / `clean_sequence`. -/
def valid_bases : List Char := ['A', 'T', 'G', 'C']

/-- `validate_sequence` (src/main.py:15-32): uppercase the sequence, then
return whether every character is a valid base. -/
def validate_sequence (sequence : List Char) : Bool :=
  (sequence.map Char.toUpper).all fun base => decide (base ∈ valid_bases)

/-- `clean_sequence` (src/main.py:35-47): uppercase the sequence and keep
only the valid bases, in order. -/
def clean_sequence (sequence : List Char) : List Char :=
  (sequence.map Char.toUpper).filter fun base => decide (base ∈ valid_bases)

/-- Python `<` on strings: lexicographic by code point, a proper prefix
being smaller. -/
def idLt : List Char → List Char → Bool
  | [], [] => false
  | [], _ :: _ => true
  | _ :: _, [] => false
  | a :: as, b :: bs =>
    if a.toNat < b.toNat then true
    else if b.toNat < a.toNat then false
    else idLt as bs

/-- Python `<` on `(len, id)` tuples: lexicographic, length first. -/
def pairLt (p q : Nat × List Char) : Bool :=
  decide (p.1 < q.1) || (decide (p.1 = q.1) && idLt p.2 q.2)

/-- Python `min(iterable)` over `(len, id)` tuples: fold keeping the current
minimum, replacing it only when a later item is strictly smaller. -/
def listMin (x : Nat × List Char) (xs : List (Nat × List Char)) : Nat × List Char :=
  xs.foldl (fun acc y => if pairLt y acc then y else acc) x

/-- Python `max(iterable)` over `(len, id)` tuples: fold keeping the current
maximum, replacing it only when a later item is strictly greater. -/
def listMax (x : Nat × List Char) (xs : List (Nat × List Char)) : Nat × List Char :=
  xs.foldl (fun acc y => if pairLt acc y then y else acc) x

/-- The generator `(len(r.seq), r.id) for r in records`. -/
def lengthPairs (records : List SeqRecord) : List (Nat × List Char) :=
  records.map fun r => (r.seq.length, r.id)

/-- Round a positive rational to the grid of integer multiples of `2 ^ g`:
nearest multiple, ties to the even multiple. -/
def roundToGrid (q : ℚ) (g : ℤ) : ℚ :=
  ((if q / (2 : ℚ) ^ g - ⌊q / (2 : ℚ) ^ g⌋ < 1 / 2 then ⌊q / (2 : ℚ) ^ g⌋
    else if 1 / 2 < q / (2 : ℚ) ^ g - ⌊q / (2 : ℚ) ^ g⌋ then ⌊q / (2 : ℚ) ^ g⌋ + 1
    else if ⌊q / (2 : ℚ) ^ g⌋ % 2 = 0 then ⌊q / (2 : ℚ) ^ g⌋
    else ⌊q / (2 : ℚ) ^ g⌋ + 1 : ℤ) : ℚ) * (2 : ℚ) ^ g

/-- The exact value of the IEEE-754 binary64 number CPython's true division
`a / b` of nonnegative ints produces: the quotient rounded to the nearest
representable value, ties to even.  For a quotient in binade
`[2 ^ e, 2 ^ (e+1))` the representable values are the multiples of
`2 ^ (e - 52)`, with the grid exponent floored at `-1074` for subnormal
results (so underflow to zero is included).  Quotients at or beyond
`2 ^ 1024`, where CPython raises OverflowError, are returned rounded on the
normal grid, and the unreachable `b = 0` (ZeroDivisionError) returns 0,
keeping the model total. -/
def div64 (a b : ℕ) : ℚ :=
  if a = 0 ∨ b = 0 then 0
  else roundToGrid ((a : ℚ) / (b : ℚ))
    (max (Int.log 2 ((a : ℚ) / (b : ℚ)) - 52) (-1074))

/-- The statistics dict built by `calculate_statistics`. The `avg_length`
field holds the exact rational value of the binary64 float Python's
division computes. -/
structure Stats where
  total_sequences : Nat
  total_bases : Nat
  avg_length : ℚ
  shortest : Nat × List Char
  longest : Nat × List Char
deriving DecidableEq, Repr

/-- `calculate_statistics` (src/main.py:50-68). -/
def calculate_statistics (records : List SeqRecord) : Stats where
  total_sequences := records.length
  total_bases := (records.map fun r => r.seq.length).sum
  avg_length :=
    match records with
    | [] => 0
    | _ :: _ => div64 ((records.map fun r => r.seq.length).sum) records.length
  shortest :=
    match lengthPairs records with
    | [] => (0, [])
    | p :: ps => listMin p ps
  longest :=
    match lengthPairs records with
    | [] => (0, [])
    | p :: ps => listMax p ps

/-- The validate/clean/accept loop of `process_fasta` (src/main.py:94-105),
detached from file I/O: returns the accepted records in input order, the
number of records valid on first pass, and `invalid_count` (the number of
records that required cleaning). A record invalid on first pass has its
sequence overwritten by the cleaned one and is kept only if that is
non-empty. -/
def process : List SeqRecord → List SeqRecord × Nat × Nat
  | [] => ([], 0, 0)
  | r :: rs =>
    let rest := process rs
    if validate_sequence r.seq then
      (r :: rest.1, rest.2.1 + 1, rest.2.2)
    else
      let cleaned := clean_sequence r.seq
      if cleaned.length > 0 then
        ({ r with seq := cleaned } :: rest.1, rest.2.1, rest.2.2 + 1)
      else
        (rest.1, rest.2.1, rest.2.2 + 1)

/-- The per-record outcome the Record Processor contract describes: a valid
record is kept as-is, an invalid one is replaced by its cleaned sequence and
kept only when that is non-empty. -/
def acceptedOf (r : SeqRecord) : Option SeqRecord :=
  if validate_sequence r.seq then some r
  else if (clean_sequence r.seq).length > 0 then
    some { r with seq := clean_sequence r.seq }
  else none

/-- Python `<=` on identifiers: the negation of the mirrored strict
comparison. -/
def idLE (a b : List Char) : Prop := idLt b a = false

/-- Non-strict lexicographic order on `(len, id)` pairs. -/
def pairLE (p q : Nat × List Char) : Prop :=
  p.1 < q.1 ∨ (p.1 = q.1 ∧ idLE p.2 q.2)

/-- Two records tied in length, with identifiers against input order. -/
def tiedPair : List SeqRecord := [⟨['b'], ['A', 'T']⟩, ⟨['a'], ['G', 'C']⟩]

/-- A one-record collection used to instantiate statistics theorems. -/
def oneRecord : List SeqRecord := [⟨['a'], ['A', 'T']⟩]

/-- Forty-nine records that all survive processing — one base in total —
so the summary's average is the binary64 rounding of `1 / 49`. -/
def fortyNine : List SeqRecord :=
  ⟨['x'], ['A']⟩ :: List.replicate 48 ⟨['e'], []⟩

lemma mem_valid_bases (c : Char) :
    c ∈ valid_bases ↔ c = 'A' ∨ c = 'T' ∨ c = 'G' ∨ c = 'C' := by
  simp [valid_bases]

lemma toUpper_of_mem_valid_bases (c : Char) (h : c ∈ valid_bases) :
    c.toUpper = c := by
  rcases (mem_valid_bases c).1 h with h | h | h | h <;> subst h <;> decide

lemma validate_sequence_iff (s : List Char) :
    validate_sequence s = true ↔ ∀ c ∈ s, Char.toUpper c ∈ valid_bases := by
  simp [validate_sequence, List.all_map, List.all_eq_true, Function.comp]

lemma mem_clean_sequence {c : Char} {s : List Char}
    (h : c ∈ clean_sequence s) : c ∈ valid_bases := by
  simp only [clean_sequence, List.mem_filter, decide_eq_true_eq] at h
  exact h.2

lemma validate_clean_sequence (s : List Char) :
    validate_sequence (clean_sequence s) = true := by
  rw [validate_sequence_iff]
  intro c hc
  have hm := mem_clean_sequence hc
  rw [toUpper_of_mem_valid_bases c hm]
  exact hm

lemma map_toUpper_clean (s : List Char) :
    (clean_sequence s).map Char.toUpper = clean_sequence s := by
  conv_rhs => rw [← List.map_id (clean_sequence s)]
  apply List.map_congr_left
  intro c hc
  exact toUpper_of_mem_valid_bases c (mem_clean_sequence hc)

lemma clean_clean (s : List Char) :
    clean_sequence (clean_sequence s) = clean_sequence s := by
  nth_rewrite 1 [clean_sequence]
  rw [map_toUpper_clean]
  apply List.filter_eq_self.mpr
  intro c hc
  simpa using mem_clean_sequence hc

lemma toUpper_eq_of_not_lower (c : Char) (h : ¬(c.toNat ≥ 97 ∧ c.toNat ≤ 122)) :
    c.toUpper = c := by
  simp only [Char.toUpper]
  rw [if_neg h]

lemma toUpper_eq_of_lower (c : Char) (h : c.toNat ≥ 97 ∧ c.toNat ≤ 122) :
    c.toUpper = Char.ofNat (c.toNat - 32) := by
  simp only [Char.toUpper]
  rw [if_pos h]

lemma toUpper_toUpper (c : Char) : c.toUpper.toUpper = c.toUpper := by
  by_cases h : c.toNat ≥ 97 ∧ c.toNat ≤ 122
  · rw [toUpper_eq_of_lower c h]
    obtain ⟨h1, h2⟩ := h
    generalize c.toNat = n at h1 h2
    interval_cases n <;> decide
  · rw [toUpper_eq_of_not_lower c h, toUpper_eq_of_not_lower c h]

lemma validate_map_toUpper (s : List Char) :
    validate_sequence (s.map Char.toUpper) = validate_sequence s := by
  unfold validate_sequence
  rw [List.map_map]
  congr 1
  apply List.map_congr_left
  intro c _
  simp only [Function.comp_apply]
  exact toUpper_toUpper c

lemma clean_map_toUpper (s : List Char) :
    clean_sequence (s.map Char.toUpper) = clean_sequence s := by
  unfold clean_sequence
  rw [List.map_map]
  congr 1
  apply List.map_congr_left
  intro c _
  simp only [Function.comp_apply]
  exact toUpper_toUpper c

lemma idLt_irrefl : ∀ a : List Char, idLt a a = false
  | [] => rfl
  | c :: cs => by simp [idLt, idLt_irrefl cs]

lemma idLt_asymm : ∀ a b : List Char, idLt a b = true → idLt b a = false
  | [], [] => by simp [idLt]
  | [], _ :: _ => by simp [idLt]
  | _ :: _, [] => by simp [idLt]
  | a :: as, b :: bs => by
    intro h
    simp only [idLt] at h ⊢
    by_cases h1 : a.toNat < b.toNat
    · rw [if_neg (show ¬ b.toNat < a.toNat by omega), if_pos h1]
    · rw [if_neg h1] at h
      by_cases h2 : b.toNat < a.toNat
      · rw [if_pos h2] at h
        exact absurd h (by simp)
      · rw [if_neg h2] at h
        rw [if_neg h2, if_neg h1]
        exact idLt_asymm as bs h

lemma idLt_false_trans (a : List Char) : ∀ b c : List Char,
    idLt b a = false → idLt c b = false → idLt c a = false := by
  induction a with
  | nil =>
    intro b c h1 h2
    cases c with
    | nil => rfl
    | cons z zs => rfl
  | cons x xs ih =>
    intro b c h1 h2
    cases b with
    | nil => simp [idLt] at h1
    | cons y ys =>
      cases c with
      | nil => simp [idLt] at h2
      | cons z zs =>
        simp only [idLt] at h1 h2 ⊢
        by_cases hyx : y.toNat < x.toNat
        · rw [if_pos hyx] at h1
          exact absurd h1 (by simp)
        · rw [if_neg hyx] at h1
          by_cases hzy : z.toNat < y.toNat
          · rw [if_pos hzy] at h2
            exact absurd h2 (by simp)
          · rw [if_neg hzy] at h2
            by_cases hxy : x.toNat < y.toNat
            · rw [if_neg (show ¬ z.toNat < x.toNat by omega),
                if_pos (show x.toNat < z.toNat by omega)]
            · rw [if_neg hxy] at h1
              by_cases hyz : y.toNat < z.toNat
              · rw [if_neg (show ¬ z.toNat < x.toNat by omega),
                  if_pos (show x.toNat < z.toNat by omega)]
              · rw [if_neg hyz] at h2
                rw [if_neg (show ¬ z.toNat < x.toNat by omega),
                  if_neg (show ¬ x.toNat < z.toNat by omega)]
                exact ih ys zs h1 h2

lemma idLE_refl (a : List Char) : idLE a a := idLt_irrefl a

lemma idLE_trans {a b c : List Char} (h1 : idLE a b) (h2 : idLE b c) :
    idLE a c :=
  idLt_false_trans a b c h1 h2

lemma pairLE_refl (p : Nat × List Char) : pairLE p p :=
  Or.inr ⟨rfl, idLE_refl p.2⟩

lemma pairLE_trans {p q r : Nat × List Char} (h1 : pairLE p q) (h2 : pairLE q r) :
    pairLE p r := by
  rcases h1 with h1 | ⟨e1, l1⟩ <;> rcases h2 with h2 | ⟨e2, l2⟩
  · exact Or.inl (h1.trans h2)
  · exact Or.inl (by omega)
  · exact Or.inl (by omega)
  · exact Or.inr ⟨e1.trans e2, idLE_trans l1 l2⟩

lemma pairLt_iff (p q : Nat × List Char) :
    pairLt p q = true ↔ (p.1 < q.1 ∨ (p.1 = q.1 ∧ idLt p.2 q.2 = true)) := by
  simp [pairLt]

lemma pairLE_of_pairLt {p q : Nat × List Char} (h : pairLt p q = true) :
    pairLE p q := by
  rcases (pairLt_iff p q).1 h with h | ⟨e, l⟩
  · exact Or.inl h
  · exact Or.inr ⟨e, idLt_asymm _ _ l⟩

lemma pairLE_of_not_pairLt {p q : Nat × List Char} (h : pairLt p q = false) :
    pairLE q p := by
  have h1 : ¬(p.1 < q.1 ∨ (p.1 = q.1 ∧ idLt p.2 q.2 = true)) := by
    rw [← pairLt_iff, h]
    simp
  push_neg at h1
  rcases Nat.lt_or_ge q.1 p.1 with hl | hg
  · exact Or.inl hl
  · have e : p.1 = q.1 := by omega
    have hf : idLt p.2 q.2 = false := by simpa using h1.2 e
    exact Or.inr ⟨e.symm, hf⟩

lemma pairLE_fst {p q : Nat × List Char} (h : pairLE p q) : p.1 ≤ q.1 := by
  rcases h with h | ⟨e, _⟩
  · exact le_of_lt h
  · exact le_of_eq e

lemma pairLE_snd {p q : Nat × List Char} (h : pairLE p q) (he : p.1 = q.1) :
    idLE p.2 q.2 := by
  rcases h with h | ⟨_, l⟩
  · exact absurd he (Nat.ne_of_lt h)
  · exact l

lemma listMin_spec (xs : List (Nat × List Char)) :
    ∀ x : Nat × List Char,
      (listMin x xs = x ∨ listMin x xs ∈ xs) ∧
      pairLE (listMin x xs) x ∧
      ∀ y ∈ xs, pairLE (listMin x xs) y := by
  induction xs with
  | nil => exact fun x => ⟨Or.inl rfl, pairLE_refl x, by simp⟩
  | cons y ys ih =>
    intro x
    have hstep : listMin x (y :: ys) = listMin (if pairLt y x then y else x) ys := rfl
    by_cases hc : pairLt y x = true
    · obtain ⟨hmem, hle, hall⟩ := ih y
      rw [hstep, if_pos hc]
      refine ⟨?_, pairLE_trans hle (pairLE_of_pairLt hc), ?_⟩
      · rcases hmem with h | h
        · exact Or.inr (by simp [h])
        · exact Or.inr (List.mem_cons_of_mem _ h)
      · intro z hz
        rcases List.mem_cons.1 hz with rfl | hz
        · exact hle
        · exact hall z hz
    · obtain ⟨hmem, hle, hall⟩ := ih x
      have hc' : pairLt y x = false := by simpa using hc
      rw [hstep, if_neg hc]
      refine ⟨?_, hle, ?_⟩
      · rcases hmem with h | h
        · exact Or.inl h
        · exact Or.inr (List.mem_cons_of_mem _ h)
      · intro z hz
        rcases List.mem_cons.1 hz with rfl | hz
        · exact pairLE_trans hle (pairLE_of_not_pairLt hc')
        · exact hall z hz

lemma listMax_spec (xs : List (Nat × List Char)) :
    ∀ x : Nat × List Char,
      (listMax x xs = x ∨ listMax x xs ∈ xs) ∧
      pairLE x (listMax x xs) ∧
      ∀ y ∈ xs, pairLE y (listMax x xs) := by
  induction xs with
  | nil => exact fun x => ⟨Or.inl rfl, pairLE_refl x, by simp⟩
  | cons y ys ih =>
    intro x
    have hstep : listMax x (y :: ys) = listMax (if pairLt x y then y else x) ys := rfl
    by_cases hc : pairLt x y = true
    · obtain ⟨hmem, hle, hall⟩ := ih y
      rw [hstep, if_pos hc]
      refine ⟨?_, pairLE_trans (pairLE_of_pairLt hc) hle, ?_⟩
      · rcases hmem with h | h
        · exact Or.inr (by simp [h])
        · exact Or.inr (List.mem_cons_of_mem _ h)
      · intro z hz
        rcases List.mem_cons.1 hz with rfl | hz
        · exact hle
        · exact hall z hz
    · obtain ⟨hmem, hle, hall⟩ := ih x
      have hc' : pairLt x y = false := by simpa using hc
      rw [hstep, if_neg hc]
      refine ⟨?_, hle, ?_⟩
      · rcases hmem with h | h
        · exact Or.inl h
        · exact Or.inr (List.mem_cons_of_mem _ h)
      · intro z hz
        rcases List.mem_cons.1 hz with rfl | hz
        · exact pairLE_trans (pairLE_of_not_pairLt hc') hle
        · exact hall z hz

lemma shortest_spec (records : List SeqRecord) (h : records ≠ []) :
    (calculate_statistics records).shortest ∈ lengthPairs records ∧
    ∀ p ∈ lengthPairs records, pairLE (calculate_statistics records).shortest p := by
  cases records with
  | nil => exact absurd rfl h
  | cons r rs =>
    have hs : (calculate_statistics (r :: rs)).shortest =
        listMin (r.seq.length, r.id) (lengthPairs rs) := rfl
    obtain ⟨hmem, hle, hall⟩ := listMin_spec (lengthPairs rs) (r.seq.length, r.id)
    have hlp : lengthPairs (r :: rs) = (r.seq.length, r.id) :: lengthPairs rs := rfl
    rw [hs, hlp]
    constructor
    · rcases hmem with hm | hm
      · rw [hm]
        exact List.mem_cons_self _ _
      · exact List.mem_cons_of_mem _ hm
    · intro p hp
      rcases List.mem_cons.1 hp with rfl | hp
      · exact hle
      · exact hall p hp

lemma longest_spec (records : List SeqRecord) (h : records ≠ []) :
    (calculate_statistics records).longest ∈ lengthPairs records ∧
    ∀ p ∈ lengthPairs records, pairLE p (calculate_statistics records).longest := by
  cases records with
  | nil => exact absurd rfl h
  | cons r rs =>
    have hs : (calculate_statistics (r :: rs)).longest =
        listMax (r.seq.length, r.id) (lengthPairs rs) := rfl
    obtain ⟨hmem, hle, hall⟩ := listMax_spec (lengthPairs rs) (r.seq.length, r.id)
    have hlp : lengthPairs (r :: rs) = (r.seq.length, r.id) :: lengthPairs rs := rfl
    rw [hs, hlp]
    constructor
    · rcases hmem with hm | hm
      · rw [hm]
        exact List.mem_cons_self _ _
      · exact List.mem_cons_of_mem _ hm
    · intro p hp
      rcases List.mem_cons.1 hp with rfl | hp
      · exact hle
      · exact hall p hp

lemma process_cons (r : SeqRecord) (rs : List SeqRecord) :
    process (r :: rs) =
      if validate_sequence r.seq then
        (r :: (process rs).1, (process rs).2.1 + 1, (process rs).2.2)
      else if (clean_sequence r.seq).length > 0 then
        ({ r with seq := clean_sequence r.seq } :: (process rs).1,
          (process rs).2.1, (process rs).2.2 + 1)
      else
        ((process rs).1, (process rs).2.1, (process rs).2.2 + 1) := by
  by_cases hv : validate_sequence r.seq = true
  · simp [process, hv]
  · by_cases hl : (clean_sequence r.seq).length > 0
    · simp [process, hv, hl]
    · simp [process, hv, hl]

lemma mul_length_le_sum (l : List Nat) (m : Nat) (h : ∀ x ∈ l, m ≤ x) :
    m * l.length ≤ l.sum := by
  induction l with
  | nil => simp
  | cons a t ih =>
    have ha := h a (List.mem_cons_self _ _)
    have ht := ih fun x hx => h x (List.mem_cons_of_mem _ hx)
    simp only [List.length_cons, List.sum_cons, Nat.mul_succ]
    omega

lemma sum_le_mul_length (l : List Nat) (M : Nat) (h : ∀ x ∈ l, x ≤ M) :
    l.sum ≤ M * l.length := by
  induction l with
  | nil => simp
  | cons a t ih =>
    have ha := h a (List.mem_cons_self _ _)
    have ht := ih fun x hx => h x (List.mem_cons_of_mem _ hx)
    simp only [List.length_cons, List.sum_cons, Nat.mul_succ]
    omega

/-- C1 fails as stated: an empty sequence is vacuously valid, so the record
survives processing with zero length; and a lowercase valid record survives
with characters outside the literal alphabet {A,T,G,C}. -/
theorem C1_counterexample :
    (¬ (∀ r ∈ (process [⟨['s', '1'], ([] : List Char)⟩]).1,
        (∀ c ∈ r.seq, c ∈ valid_bases) ∧ r.seq.length ≠ 0)) ∧
    (¬ (∀ r ∈ (process [⟨['s', '2'], ['a']⟩]).1,
        (∀ c ∈ r.seq, c ∈ valid_bases) ∧ r.seq.length ≠ 0)) := by decide

/-- C1 (amended): every record that survives processing passes the
validator — each of its characters uppercases into {A,T,G,C} — and a
surviving record is either an input record kept unchanged (possibly empty
or lowercase) or has a non-empty sequence made only of literal {A,T,G,C}
characters. -/
theorem C1_survivors_valid (records : List SeqRecord) :
    ∀ r ∈ (process records).1,
      validate_sequence r.seq = true ∧
      (r ∈ records ∨ (r.seq ≠ [] ∧ ∀ c ∈ r.seq, c ∈ valid_bases)) := by
  induction records with
  | nil =>
    intro r hr
    simp [process] at hr
  | cons q rs ih =>
    intro r hr
    rw [process_cons] at hr
    by_cases hv : validate_sequence q.seq = true
    · rw [if_pos hv] at hr
      rcases List.mem_cons.1 hr with rfl | hr
      · exact ⟨hv, Or.inl (List.mem_cons_self _ _)⟩
      · obtain ⟨h1, h2⟩ := ih r hr
        refine ⟨h1, ?_⟩
        rcases h2 with h | h
        · exact Or.inl (List.mem_cons_of_mem _ h)
        · exact Or.inr h
    · rw [if_neg hv] at hr
      by_cases hl : (clean_sequence q.seq).length > 0
      · rw [if_pos hl] at hr
        rcases List.mem_cons.1 hr with rfl | hr
        · refine ⟨validate_clean_sequence _, Or.inr ⟨?_, ?_⟩⟩
          · show clean_sequence q.seq ≠ []
            exact List.length_pos.1 hl
          · intro c hc
            exact mem_clean_sequence hc
        · obtain ⟨h1, h2⟩ := ih r hr
          refine ⟨h1, ?_⟩
          rcases h2 with h | h
          · exact Or.inl (List.mem_cons_of_mem _ h)
          · exact Or.inr h
      · rw [if_neg hl] at hr
        obtain ⟨h1, h2⟩ := ih r hr
        refine ⟨h1, ?_⟩
        rcases h2 with h | h
        · exact Or.inl (List.mem_cons_of_mem _ h)
        · exact Or.inr h

theorem C1_witness :
    validate_sequence (['a'] : List Char) = true ∧
    ((⟨['s', '1'], ['a']⟩ : SeqRecord) ∈ ([⟨['s', '1'], ['a']⟩] : List SeqRecord) ∨
      ((['a'] : List Char) ≠ [] ∧ ∀ c ∈ (['a'] : List Char), c ∈ valid_bases)) :=
  C1_survivors_valid [⟨['s', '1'], ['a']⟩] ⟨['s', '1'], ['a']⟩ (by decide)

/-- C2 fails as stated: in `tiedPair` both records have length 2 and "b"
comes first in input order, yet the reported shortest record is "a" — the
tie is broken by identifier, not by input position. -/
theorem C2_counterexample :
    (calculate_statistics tiedPair).shortest = (2, ['a']) ∧
    (calculate_statistics tiedPair).shortest ≠ (2, ['b']) ∧
    (calculate_statistics tiedPair).longest = (2, ['b']) := by decide

/-- C2 (amended): the reported shortest record is the lexicographic minimum
of the (length, id) pairs of the collection and the reported longest their
lexicographic maximum, so ties in length are broken by identifier —
smallest identifier wins for shortest, largest for longest — independent of
input order. -/
theorem C2_extremes_lex (records : List SeqRecord) (h : records ≠ []) :
    ((calculate_statistics records).shortest ∈ lengthPairs records ∧
      ∀ p ∈ lengthPairs records, pairLE (calculate_statistics records).shortest p) ∧
    ((calculate_statistics records).longest ∈ lengthPairs records ∧
      ∀ p ∈ lengthPairs records, pairLE p (calculate_statistics records).longest) :=
  ⟨shortest_spec records h, longest_spec records h⟩

theorem C2_witness :
    ((calculate_statistics tiedPair).shortest ∈ lengthPairs tiedPair ∧
      ∀ p ∈ lengthPairs tiedPair, pairLE (calculate_statistics tiedPair).shortest p) ∧
    ((calculate_statistics tiedPair).longest ∈ lengthPairs tiedPair ∧
      ∀ p ∈ lengthPairs tiedPair, pairLE p (calculate_statistics tiedPair).longest) :=
  C2_extremes_lex tiedPair (by decide)

/-- C3 fails as stated: a record that is valid on first pass is appended
unmodified, so a lowercase sequence reaches the accepted output without
being uppercased. -/
theorem C3_counterexample :
    (process [⟨['s', '1'], ['a', 't', 'g', 'c']⟩]).1 =
      [⟨['s', '1'], ['a', 't', 'g', 'c']⟩] ∧
    ¬ (∀ r ∈ (process [⟨['s', '1'], ['a', 't', 'g', 'c']⟩]).1,
        r.seq = r.seq.map Char.toUpper) := by decide

/-- C3 (amended): validation and cleaning work on an uppercased copy of the
sequence — both are unchanged by uppercasing their input, and the cleaner's
output is fully uppercase — but a record valid on first pass is kept with
its original, possibly non-uppercase, sequence, so accepted output is not
necessarily uppercase. -/
theorem C3_case_normalization (s : List Char) :
    validate_sequence (s.map Char.toUpper) = validate_sequence s ∧
    clean_sequence (s.map Char.toUpper) = clean_sequence s ∧
    (clean_sequence s).map Char.toUpper = clean_sequence s ∧
    ∀ i : List Char, validate_sequence s = true →
      process [⟨i, s⟩] = ([⟨i, s⟩], 1, 0) :=
  ⟨validate_map_toUpper s, clean_map_toUpper s, map_toUpper_clean s, by
    intro i hv
    simp [process, hv]⟩

/-- C4: `process` keeps the accepted records in input order — valid records
unchanged, invalid ones replaced by their non-empty cleaned sequence,
dropped otherwise — and returns the number of first-pass-valid records and
the number of records that required cleaning (counted whether or not the
cleaned sequence survived); in particular a fully contaminated single
record gives `([], 0, 1)` and the empty input gives `([], 0, 0)`. -/
theorem C4_process_contract :
    (∀ records : List SeqRecord,
      (process records).1 = records.filterMap acceptedOf ∧
      (process records).2.1 = records.countP (fun r => validate_sequence r.seq) ∧
      (process records).2.2 = records.countP (fun r => !validate_sequence r.seq)) ∧
    process [⟨['s', '1'], ['X', 'X', 'X']⟩] = ([], 0, 1) ∧
    process [] = ([], 0, 0) := by
  refine ⟨?_, by decide, rfl⟩
  intro records
  induction records with
  | nil => exact ⟨rfl, rfl, rfl⟩
  | cons r rs ih =>
    obtain ⟨ih1, ih2, ih3⟩ := ih
    rw [process_cons]
    by_cases hv : validate_sequence r.seq = true
    · simp [hv, acceptedOf, List.countP_cons, ih1, ih2, ih3]
    · have hv' : validate_sequence r.seq = false := by simpa using hv
      by_cases hl : (clean_sequence r.seq).length > 0
      · simp [hv', hl, acceptedOf, List.countP_cons, ih1, ih2, ih3]
      · simp [hv', hl, acceptedOf, List.countP_cons, ih1, ih2, ih3]

/-- C5: the reported shortest length is the true minimum and, among records
tied for it, the lexicographically smallest identifier is reported; the
reported longest length is the true maximum and, among records tied for it,
the lexicographically largest identifier is reported; both reported pairs
belong to records of the input. -/
theorem C5_tie_break_asymmetry (records : List SeqRecord) (h : records ≠ []) :
    ((∃ r ∈ records, r.seq.length = (calculate_statistics records).shortest.1 ∧
        r.id = (calculate_statistics records).shortest.2) ∧
      (∀ r ∈ records, (calculate_statistics records).shortest.1 ≤ r.seq.length) ∧
      (∀ r ∈ records, r.seq.length = (calculate_statistics records).shortest.1 →
        idLE (calculate_statistics records).shortest.2 r.id)) ∧
    ((∃ r ∈ records, r.seq.length = (calculate_statistics records).longest.1 ∧
        r.id = (calculate_statistics records).longest.2) ∧
      (∀ r ∈ records, r.seq.length ≤ (calculate_statistics records).longest.1) ∧
      (∀ r ∈ records, r.seq.length = (calculate_statistics records).longest.1 →
        idLE r.id (calculate_statistics records).longest.2)) := by
  obtain ⟨hsm, hsall⟩ := shortest_spec records h
  obtain ⟨hlm, hlall⟩ := longest_spec records h
  refine ⟨⟨?_, ?_, ?_⟩, ?_, ?_, ?_⟩
  · obtain ⟨q, hq, he⟩ := List.mem_map.1 hsm
    exact ⟨q, hq, by rw [← he], by rw [← he]⟩
  · intro r hr
    exact pairLE_fst (hsall _ (List.mem_map_of_mem _ hr))
  · intro r hr he
    exact pairLE_snd (hsall _ (List.mem_map_of_mem _ hr)) he.symm
  · obtain ⟨q, hq, he⟩ := List.mem_map.1 hlm
    exact ⟨q, hq, by rw [← he], by rw [← he]⟩
  · intro r hr
    exact pairLE_fst (hlall _ (List.mem_map_of_mem _ hr))
  · intro r hr he
    exact pairLE_snd (hlall _ (List.mem_map_of_mem _ hr)) he

theorem C5_witness :
    ((∃ r ∈ tiedPair, r.seq.length = (calculate_statistics tiedPair).shortest.1 ∧
        r.id = (calculate_statistics tiedPair).shortest.2) ∧
      (∀ r ∈ tiedPair, (calculate_statistics tiedPair).shortest.1 ≤ r.seq.length) ∧
      (∀ r ∈ tiedPair, r.seq.length = (calculate_statistics tiedPair).shortest.1 →
        idLE (calculate_statistics tiedPair).shortest.2 r.id)) ∧
    ((∃ r ∈ tiedPair, r.seq.length = (calculate_statistics tiedPair).longest.1 ∧
        r.id = (calculate_statistics tiedPair).longest.2) ∧
      (∀ r ∈ tiedPair, r.seq.length ≤ (calculate_statistics tiedPair).longest.1) ∧
      (∀ r ∈ tiedPair, r.seq.length = (calculate_statistics tiedPair).longest.1 →
        idLE r.id (calculate_statistics tiedPair).longest.2)) :=
  C5_tie_break_asymmetry tiedPair (by decide)

/-- C6: the statistics of the empty record collection are the defined
degenerate values: zero counts, zero average, and a `(0, empty id)`
sentinel for both the shortest and the longest record; no error is possible
since `calculate_statistics` is total. -/
theorem C6_empty_summary :
    calculate_statistics [] = ⟨0, 0, 0, (0, []), (0, [])⟩ := rfl

/-- C7: the validator accepts a sequence exactly when every character,
after uppercase normalization, is one of A, T, G, C; in particular the
empty sequence is vacuously valid and "atgc" is valid. -/
theorem C7_validator_correct :
    (∀ s : List Char,
      (validate_sequence s = true ↔ ∀ c ∈ s, Char.toUpper c ∈ valid_bases)) ∧
    validate_sequence [] = true ∧
    validate_sequence ['a', 't', 'g', 'c'] = true :=
  ⟨validate_sequence_iff, by decide, by decide⟩

/-- C8: the cleaner is idempotent, its output always passes the validator,
and cleaning the empty sequence yields the empty sequence. -/
theorem C8_cleaner_idempotent :
    (∀ s : List Char, clean_sequence (clean_sequence s) = clean_sequence s) ∧
    (∀ s : List Char, validate_sequence (clean_sequence s) = true) ∧
    clean_sequence [] = [] :=
  ⟨clean_clean, validate_clean_sequence, rfl⟩

lemma dyadic_mul_49_ne_one (m g : ℤ) : (m : ℚ) * (2 : ℚ) ^ g * 49 ≠ 1 := by
  intro h
  rcases le_or_lt 0 g with hg | hg
  · lift g to ℕ using hg
    rw [zpow_natCast] at h
    have h' : (m * 2 ^ g * 49 : ℤ) = 1 := by exact_mod_cast h
    have h49 : (49 : ℤ) ∣ 1 := ⟨m * 2 ^ g, by linarith⟩
    norm_num at h49
  · have hk : g = -(((-g).toNat : ℕ) : ℤ) := by omega
    set k := (-g).toNat with hkdef
    rw [hk, zpow_neg, zpow_natCast] at h
    have h2 : ((2 : ℚ) ^ k) ≠ 0 := by positivity
    rw [mul_right_comm, ← div_eq_mul_inv, div_eq_one_iff_eq h2] at h
    have hz : (m * 49 : ℤ) = 2 ^ k := by exact_mod_cast h
    have h7 : (7 : ℤ) ∣ 2 ^ k := ⟨m * 7, by linarith⟩
    have hp : Prime (7 : ℤ) := by norm_num
    have h72 := hp.dvd_of_dvd_pow h7
    norm_num at h72

lemma div64_one_div_49 : div64 1 49 * 49 ≠ (1 : ℚ) := by
  unfold div64
  rw [if_neg (by norm_num)]
  unfold roundToGrid
  exact dyadic_mul_49_ne_one _ _

/-- C9 fails as stated: for 49 accepted records totalling one base (48
empty records survive processing, as does the single one-base record), the
summary's `avg_length` is the binary64 rounding of `1 / 49` — a dyadic
rational `m * 2 ^ g` — and since `49 * m` can never be a power of two,
`avg_length * total_sequences ≠ total_bases` no matter how the division
rounds. -/
theorem C9_counterexample :
    (process fortyNine).1 = fortyNine ∧
    (calculate_statistics fortyNine).total_bases = 1 ∧
    (calculate_statistics fortyNine).total_sequences = 49 ∧
    ((calculate_statistics fortyNine).total_bases : ℚ) ≠
      (calculate_statistics fortyNine).avg_length *
        ((calculate_statistics fortyNine).total_sequences : ℚ) := by
  refine ⟨by decide, by decide, by decide, ?_⟩
  have ha : (calculate_statistics fortyNine).avg_length = div64 1 49 := rfl
  have hb : (calculate_statistics fortyNine).total_bases = 1 := by decide
  have hc : (calculate_statistics fortyNine).total_sequences = 49 := by decide
  rw [ha, hb, hc]
  push_cast
  exact fun h => div64_one_div_49 h.symm

/-- C9 (amended): over a non-empty collection the exact average
`total_bases / total_sequences` lies between the reported shortest and
longest lengths and satisfies `total_bases` = average × `total_sequences`
exactly; the summary's `avg_length` field is the binary64 rounding `div64`
of that exact average, for which the product identity can fail. -/
theorem C9_exact_avg_bounds (records : List SeqRecord) (h : records ≠ []) :
    ((calculate_statistics records).shortest.1 : ℚ) ≤
        ((calculate_statistics records).total_bases : ℚ) /
          ((calculate_statistics records).total_sequences : ℚ) ∧
    ((calculate_statistics records).total_bases : ℚ) /
        ((calculate_statistics records).total_sequences : ℚ) ≤
      ((calculate_statistics records).longest.1 : ℚ) ∧
    ((calculate_statistics records).total_bases : ℚ) =
        (((calculate_statistics records).total_bases : ℚ) /
          ((calculate_statistics records).total_sequences : ℚ)) *
          ((calculate_statistics records).total_sequences : ℚ) ∧
    (calculate_statistics records).avg_length =
        div64 (calculate_statistics records).total_bases
          (calculate_statistics records).total_sequences := by
  obtain ⟨hsm, hsall⟩ := shortest_spec records h
  obtain ⟨hlm, hlall⟩ := longest_spec records h
  have hmin : ∀ x ∈ records.map (fun q => q.seq.length),
      (calculate_statistics records).shortest.1 ≤ x := by
    intro x hx
    obtain ⟨q, hq, rfl⟩ := List.mem_map.1 hx
    exact pairLE_fst (hsall _ (List.mem_map_of_mem _ hq))
  have hmax : ∀ x ∈ records.map (fun q => q.seq.length),
      x ≤ (calculate_statistics records).longest.1 := by
    intro x hx
    obtain ⟨q, hq, rfl⟩ := List.mem_map.1 hx
    exact pairLE_fst (hlall _ (List.mem_map_of_mem _ hq))
  have h1 := mul_length_le_sum _ _ hmin
  have h2 := sum_le_mul_length _ _ hmax
  rw [List.length_map] at h1 h2
  cases records with
  | nil => exact absurd rfl h
  | cons r rs =>
    have hn0 : (r :: rs).length ≠ 0 := by simp
    have hn : (0 : ℚ) < ((r :: rs).length : ℚ) := by
      exact_mod_cast Nat.pos_of_ne_zero hn0
    have htb : (calculate_statistics (r :: rs)).total_bases =
        ((r :: rs).map fun q => q.seq.length).sum := rfl
    have hts : (calculate_statistics (r :: rs)).total_sequences =
        (r :: rs).length := rfl
    refine ⟨?_, ?_, ?_, rfl⟩
    · rw [htb, hts, le_div_iff₀ hn]
      exact_mod_cast h1
    · rw [htb, hts, div_le_iff₀ hn]
      exact_mod_cast h2
    · rw [htb, hts]
      exact (div_mul_cancel₀ _ (ne_of_gt hn)).symm

theorem C9_witness :
    ((calculate_statistics oneRecord).shortest.1 : ℚ) ≤
        ((calculate_statistics oneRecord).total_bases : ℚ) /
          ((calculate_statistics oneRecord).total_sequences : ℚ) ∧
    ((calculate_statistics oneRecord).total_bases : ℚ) /
        ((calculate_statistics oneRecord).total_sequences : ℚ) ≤
      ((calculate_statistics oneRecord).longest.1 : ℚ) ∧
    ((calculate_statistics oneRecord).total_bases : ℚ) =
        (((calculate_statistics oneRecord).total_bases : ℚ) /
          ((calculate_statistics oneRecord).total_sequences : ℚ)) *
          ((calculate_statistics oneRecord).total_sequences : ℚ) ∧
    (calculate_statistics oneRecord).avg_length =
        div64 (calculate_statistics oneRecord).total_bases
          (calculate_statistics oneRecord).total_sequences :=
  C9_exact_avg_bounds oneRecord (by decide)

/-- C10: `process` never accepts more records than it was given, and the
number of dropped records is at most the number of records that required
cleaning. -/
theorem C10_count_bounds (records : List SeqRecord) :
    (process records).1.length ≤ records.length ∧
    records.length - (process records).1.length ≤ (process records).2.2 := by
  induction records with
  | nil => exact ⟨le_refl 0, le_refl 0⟩
  | cons r rs ih =>
    obtain ⟨ih1, ih2⟩ := ih
    rw [process_cons]
    by_cases hv : validate_sequence r.seq = true
    · simp only [if_pos hv, List.length_cons]
      exact ⟨by omega, by omega⟩
    · by_cases hl : (clean_sequence r.seq).length > 0
      · simp only [if_neg hv, if_pos hl, List.length_cons]
        exact ⟨by omega, by omega⟩
      · simp only [if_neg hv, if_neg hl, List.length_cons]
        exact ⟨by omega, by omega⟩
